import Mathlib

/-!
A shallow embedding of the `zoda-rs` repository (files `src/tree.rs`,
`src/datasquare.rs`, `src/codecs.rs`) together with proofs about the
claims of its specification.

Modelling conventions:
* `Felt` (`BinaryField128b`) is represented by the natural number returned by
  `val()`; the external field multiplication is an abstract parameter `fmul`.
* The external SHA-256 function is an abstract parameter
  `h : List Nat → List Nat` (byte list in, 32-byte digest out).
* The Reed-Solomon encoder is an abstract fallible parameter
  `enc : List Felt → Option (List Felt)`; the claims constrain it to be a
  systematic doubling encoder.
* Rust `Result` values become `Except RunError`; an index-out-of-bounds
  panic is modelled by the distinguished branch `RunError.indexPanic`;
  the `bail!("failed to get tree commitment")` branch by
  `RunError.commitmentError`.
* A `MerkleTree` is modelled by its ordered leaf list; `merkleRoot` follows
  `rs_merkle`: pairwise hash of concatenated siblings, an odd node promoted
  unchanged, no root for an empty leaf list.
-/

namespace Zoda

/-- A field element, represented by its `val()` (a `u128` value). -/
abbrev Felt := Nat

/-- Big-endian byte encoding on `w` bytes, as `to_be_bytes` produces. -/
def beBytes : Nat → Nat → List Nat
  | 0, _ => []
  | w + 1, n => beBytes w (n / 256) ++ [n % 256]

/-- `uN::from_be_bytes`: read a big-endian byte list as an unsigned integer. -/
def fromBeBytes (bs : List Nat) : Nat :=
  List.foldl (fun acc b => acc * 256 + b) 0 bs

/-- `Felt::new` on a `u128` value: `BinaryField128b` has exactly `2^128`
elements and `new` wraps the `u128` representative. -/
def feltNew (n : Nat) : Nat := n % 2 ^ 128

/-- Model of collecting a Rust iterator of `Option`s: the first `None`
short-circuits the whole traversal. -/
def mapOption {α β : Type} (f : α → Option β) : List α → Option (List β)
  | [] => some []
  | a :: l =>
    match f a with
    | none => none
    | some b => (mapOption f l).map (fun bs => b :: bs)

/-- Model of collecting a Rust iterator of `Result`s (the `?` operator):
the first error short-circuits the whole traversal. -/
def mapExcept {ε α β : Type} (f : α → Except ε β) : List α → Except ε (List β)
  | [] => Except.ok []
  | a :: l =>
    match f a with
    | Except.error e => Except.error e
    | Except.ok b =>
      match mapExcept f l with
      | Except.error e => Except.error e
      | Except.ok bs => Except.ok (b :: bs)

/-- Failure modes of a pipeline run (`anyhow` errors and panics). -/
inductive RunError : Type where
  | encodingError : RunError
  | commitmentError : RunError
  | indexPanic : RunError
deriving DecidableEq

/-- `transpose` from `tree.rs`: for `i` in `0..matrix.len()` collect
`col[i]` over all columns; the out-of-bounds panic of `col[i]` is modelled
by `none`. -/
def transpose (matrix : List (List Felt)) : Option (List (List Felt)) :=
  mapOption (fun i => mapOption (fun col => col.get? i) matrix)
    (List.range matrix.length)

/-- `DataSquare` from `tree.rs` (the encoder is passed separately as an
abstract parameter). -/
structure DataSquare where
  q1_cols : List (List Felt)
  width : Nat

/-- `ExtendedDataSquare` from `tree.rs`; each Merkle tree is modelled by its
ordered leaf list. -/
structure ExtendedDataSquare where
  cols : List (List Felt)
  rows : List (List Felt)
  dr : List Felt
  x_tree : List (List Nat)
  z_tree : List (List Nat)
deriving DecidableEq

section Pipeline

variable (enc : List Felt → Option (List Felt)) (h : List Nat → List Nat)
  (fmul : Felt → Felt → Felt)

/-- `DataSquare::create_q3`: encode every column of Q1 and push the whole
returned codeword. -/
def create_q3 (ds : DataSquare) : Except RunError (List (List Felt)) :=
  mapExcept (fun col =>
    match enc col with
    | some new_col => Except.ok new_col
    | none => Except.error RunError.encodingError) ds.q1_cols

/-- `DataSquare::create_tree`: flatten the given matrices (outer list, then
columns, then elements) and hash each element's 16-byte big-endian `val()`
into one leaf. The resulting Merkle tree is modelled by this leaf list. -/
def create_tree (matrices : List (List (List Felt))) : List (List Nat) :=
  matrices.flatten.flatMap (fun col => col.map (fun elem => h (beBytes 16 elem)))

/-- One merge level of `rs_merkle`: hash the concatenation of each sibling
pair; an unpaired last node is promoted unchanged. -/
def mergeLevel : List (List Nat) → List (List Nat)
  | a :: b :: rest => h (a ++ b) :: mergeLevel rest
  | l => l

/-- Root computation of `rs_merkle`, fuelled (the fuel is an upper bound on
the number of merge levels; `merkleRoot` supplies enough). -/
def rootLoop : Nat → List (List Nat) → Option (List Nat)
  | _, [x] => some x
  | fuel + 1, a :: b :: rest => rootLoop fuel (mergeLevel h (a :: b :: rest))
  | _, _ => none

/-- `MerkleTree::root`: `none` exactly when the leaf list is empty. -/
def merkleRoot (leaves : List (List Nat)) : Option (List Nat) :=
  rootLoop h leaves.length leaves

/-- `DataSquare::create_dr`: for each index below `width`, hash the root
bytes followed by the 8-byte big-endian index, truncate the digest to its
first 16 bytes and read it as a `u128` to build a field element. -/
def create_dr (width : Nat) (tree_commitment : List Nat) : List Felt :=
  (List.range width).map (fun dr_i =>
    feltNew (fromBeBytes ((h (tree_commitment ++ beBytes 8 dr_i)).take 16)))

/-- The column loop of `DataSquare::multiply_dr`, carrying the running
`enumerate` index `i`; the panic of `dr[i]` is modelled by `none`. -/
def mulCols (dr : List Felt) : Nat → List (List Felt) → Option (List (List Felt))
  | _, [] => some []
  | i, col :: rest =>
    match dr.get? i with
    | none => none
    | some d => (mulCols dr (i + 1) rest).map
        (fun rs => col.map (fun elem => fmul elem d) :: rs)

/-- `DataSquare::multiply_dr`: multiply every element of column `i` by
`dr[i]` (as a pure transform of the mutated matrix). -/
def multiply_dr (matrix : List (List Felt)) (dr : List Felt) :
    Option (List (List Felt)) :=
  mulCols fmul dr 0 matrix

/-- `DataSquare::extend_quadrant`: transpose the column data to rows and
encode every row. -/
def extend_quadrant (column_data : List (List Felt)) :
    Except RunError (List (List Felt)) :=
  match transpose column_data with
  | none => Except.error RunError.indexPanic
  | some rows =>
    mapExcept (fun row =>
      match enc row with
      | some encoded => Except.ok encoded
      | none => Except.error RunError.encodingError) rows

/-- The `iter_mut().zip(ext)` loop of `ExtendedDataSquare::from_cols`:
extend each base column by the matching extension column; base columns
beyond the zip stay unchanged, extension columns beyond it are dropped. -/
def extendCols : List (List Felt) → List (List Felt) → List (List Felt)
  | [], _ => []
  | b :: bs, [] => b :: bs
  | b :: bs, e :: es => (b ++ e) :: extendCols bs es

/-- `ExtendedDataSquare::from_cols`: left columns are Q1 extended by Q3,
right columns are Q2 extended by Q4; rows come from transposing the
combined columns (a panic there is modelled by `none`). -/
def from_cols (q1 q2 q3 q4 : List (List Felt)) (dr : List Felt)
    (x_tree z_tree : List (List Nat)) : Option ExtendedDataSquare :=
  let left_cols := extendCols q1 q3
  let right_cols := extendCols q2 q4
  let cols := left_cols ++ right_cols
  (transpose cols).map (fun rows =>
    { cols := cols, rows := rows, dr := dr, x_tree := x_tree, z_tree := z_tree })

/-- `DataSquare::extend`: the full pipeline, in the source's evaluation
order. -/
def extend (ds : DataSquare) : Except RunError ExtendedDataSquare :=
  match create_q3 enc ds with
  | Except.error e => Except.error e
  | Except.ok q3_cols =>
    match transpose ds.q1_cols, transpose q3_cols with
    | some tq1, some tq3 =>
      let x_tree := create_tree h [tq1, tq3]
      match merkleRoot h x_tree with
      | none => Except.error RunError.commitmentError
      | some root =>
        let dr := create_dr h ds.width root
        match multiply_dr fmul ds.q1_cols dr, multiply_dr fmul q3_cols dr with
        | some q1_dr_cols, some q3_dr_cols =>
          match extend_quadrant enc q1_dr_cols, extend_quadrant enc q3_dr_cols with
          | Except.ok q2_rows, Except.ok q4_rows =>
            match transpose q2_rows, transpose q4_rows with
            | some tq2, some tq4 =>
              let z_tree := create_tree h [q1_dr_cols, tq2, q3_dr_cols, tq4]
              match from_cols ds.q1_cols tq2 q3_cols tq4 dr x_tree z_tree with
              | some eds => Except.ok eds
              | none => Except.error RunError.indexPanic
            | _, _ => Except.error RunError.indexPanic
          | Except.error e, _ => Except.error e
          | _, Except.error e => Except.error e
        | _, _ => Except.error RunError.indexPanic
    | _, _ => Except.error RunError.indexPanic

end Pipeline

/-! The byte-square layout layer, from `src/datasquare.rs`. A share is a
byte list; the `roots` field (always empty at construction) and the `axis`
tag carry no data relevant to the claims and are omitted. -/

/-- `datasquare::DataSquare`: row-major and column-major views over byte
shares. -/
structure ByteDataSquare where
  row_data : List (List (List Nat))
  col_data : List (List (List Nat))
  width : Nat
  share_size : Nat
deriving DecidableEq

/-- Outcome of `DataSquare::new`, which aborts via `panic!` instead of
returning a recoverable error. -/
inductive BuildOutcome : Type where
  | panicked : String → BuildOutcome
  | built : ByteDataSquare → BuildOutcome
deriving DecidableEq

/-- `(n as f64).sqrt().ceil() as usize`: the least `s` with `n ≤ s * s`
(the `f64` square root is exact on every integer in the modelled range). -/
def ceilSqrt (n : Nat) : Nat :=
  (((List.range (n + 1)).find? (fun s => n ≤ s * s)).getD n)

/-- `datasquare::DataSquare::new`: panics on a non-square share count or a
share whose length differs from `share_size`; otherwise chunks the flat
share list into width-sized rows and builds the column view by index. -/
def dsNew (data : List (List Nat)) (share_size : Nat) : BuildOutcome :=
  let width := ceilSqrt data.length
  if width * width ≠ data.length then
    BuildOutcome.panicked "DataSquare must be square"
  else if data.any (fun share => share.length ≠ share_size) then
    BuildOutcome.panicked "All shares must be the same size"
  else
    let square_rows := (List.range width).map
      (fun row_idx => (data.drop (row_idx * width)).take width)
    let square_col := (List.range width).map
      (fun col_idx => (List.range width).map
        (fun row_idx => (data.get? (row_idx * width + col_idx)).getD []))
    BuildOutcome.built
      { row_data := square_rows, col_data := square_col,
        width := width, share_size := share_size }

/-- `datasquare::DataSquare::extend_square`: bail if the filler share has
the wrong size; otherwise pad every original row with fillers up to the new
width, append all-filler rows, and rebuild the column view by transposing
the new rows.  (The source's `data[i]` indexing cannot go out of bounds on
a square input; it is modelled with defaults.) -/
def extend_square (ds : ByteDataSquare) (extended_width : Nat)
    (filler_share : List Nat) : Except String ByteDataSquare :=
  if filler_share.length ≠ ds.share_size then
    Except.error "Filler share must be the same size as the existing shares"
  else
    let new_width := ds.width + extended_width
    let filler_extended_row := List.replicate extended_width filler_share
    let filler_row := List.replicate new_width filler_share
    let new_square_row :=
      (List.range ds.width).map
        (fun i => ((ds.row_data.get? i).getD []) ++ filler_extended_row)
      ++ List.replicate (new_width - ds.width) filler_row
    let new_square_col :=
      (List.range new_width).map (fun col_idx =>
        (List.range new_width).map (fun row_idx =>
          (((new_square_row.get? row_idx).getD []).get? col_idx).getD []))
    Except.ok
      { row_data := new_square_row, col_data := new_square_col,
        width := new_width, share_size := ds.share_size }

/-! Spec-level closed forms and predicates used to state the theorems. -/

/-- The data-square invariant: `width` columns, each of `width` elements. -/
def ValidSquare (ds : DataSquare) : Prop :=
  ds.q1_cols.length = ds.width ∧ ∀ col ∈ ds.q1_cols, col.length = ds.width

/-- `enc` is a systematic doubling encoder whose extension half is `ext`:
on every input it succeeds with the input followed by an equally long
extension. -/
def SysDoublingWith (enc : List Felt → Option (List Felt))
    (ext : List Felt → List Felt) : Prop :=
  ∀ v, enc v = some (v ++ ext v) ∧ (ext v).length = v.length

/-- Total transpose of a matrix with `n` columns: `n` rows, row `i`
collecting entry `i` of every column.  Agrees with `transpose` whenever the
latter does not panic. -/
def transposeTotal (m : List (List Felt)) : List (List Felt) :=
  (List.range m.length).map (fun i => m.map (fun col => col.getD i 0))

/-- Closed form of `mulCols` starting at index `k`. -/
def scaleFrom (fmul : Felt → Felt → Felt) (dr : List Felt) :
    Nat → List (List Felt) → List (List Felt)
  | _, [] => []
  | i, col :: rest =>
    col.map (fun elem => fmul elem (dr.getD i 0)) :: scaleFrom fmul dr (i + 1) rest

/-- Closed form of `multiply_dr`: column `i` scaled by `dr[i]`. -/
def scaleCols (fmul : Felt → Felt → Felt) (dr : List Felt)
    (m : List (List Felt)) : List (List Felt) :=
  scaleFrom fmul dr 0 m

/-- Closed form of the Q3 quadrant `create_q3` builds: one full codeword
per column of Q1. -/
def q3F (ext : List Felt → List Felt) (ds : DataSquare) : List (List Felt) :=
  ds.q1_cols.map (fun col => col ++ ext col)

/-- Encode every row of a matrix with a systematic doubling encoder. -/
def encRows (ext : List Felt → List Felt) (rows : List (List Felt)) :
    List (List Felt) :=
  rows.map (fun row => row ++ ext row)

/-- Leaves of the first commitment tree in a run of `extend`. -/
def xLeavesF (ext : List Felt → List Felt) (h : List Nat → List Nat)
    (ds : DataSquare) : List (List Nat) :=
  create_tree h [transposeTotal ds.q1_cols, transposeTotal (q3F ext ds)]

/-- The scaled Q1 quadrant of a run whose first root is `root`. -/
def q1sF (h : List Nat → List Nat) (fmul : Felt → Felt → Felt)
    (ds : DataSquare) (root : List Nat) : List (List Felt) :=
  scaleCols fmul (create_dr h ds.width root) ds.q1_cols

/-- The scaled Q3 quadrant of a run whose first root is `root`. -/
def q3sF (ext : List Felt → List Felt) (h : List Nat → List Nat)
    (fmul : Felt → Felt → Felt) (ds : DataSquare) (root : List Nat) :
    List (List Felt) :=
  scaleCols fmul (create_dr h ds.width root) (q3F ext ds)

/-- The Q2 rows `extend_quadrant` produces from the scaled Q1. -/
def q2rF (ext : List Felt → List Felt) (h : List Nat → List Nat)
    (fmul : Felt → Felt → Felt) (ds : DataSquare) (root : List Nat) :
    List (List Felt) :=
  encRows ext (transposeTotal (q1sF h fmul ds root))

/-- The Q4 rows `extend_quadrant` produces from the scaled Q3. -/
def q4rF (ext : List Felt → List Felt) (h : List Nat → List Nat)
    (fmul : Felt → Felt → Felt) (ds : DataSquare) (root : List Nat) :
    List (List Felt) :=
  encRows ext (transposeTotal (q3sF ext h fmul ds root))

/-- Leaves of the second commitment tree in a run of `extend`. -/
def zLeavesF (ext : List Felt → List Felt) (h : List Nat → List Nat)
    (fmul : Felt → Felt → Felt) (ds : DataSquare) (root : List Nat) :
    List (List Nat) :=
  create_tree h [q1sF h fmul ds root, transposeTotal (q2rF ext h fmul ds root),
    q3sF ext h fmul ds root, transposeTotal (q4rF ext h fmul ds root)]

/-- The assembled column-major matrix of a run of `extend`. -/
def colsF (ext : List Felt → List Felt) (h : List Nat → List Nat)
    (fmul : Felt → Felt → Felt) (ds : DataSquare) (root : List Nat) :
    List (List Felt) :=
  extendCols ds.q1_cols (q3F ext ds) ++
    extendCols (transposeTotal (q2rF ext h fmul ds root))
      (transposeTotal (q4rF ext h fmul ds root))

/-- The `ExtendedDataSquare` a successful run of `extend` assembles, as a
function of the first commitment root. -/
def edsF (ext : List Felt → List Felt) (h : List Nat → List Nat)
    (fmul : Felt → Felt → Felt) (ds : DataSquare) (root : List Nat) :
    ExtendedDataSquare :=
  { cols := colsF ext h fmul ds root
    rows := transposeTotal (colsF ext h fmul ds root)
    dr := create_dr h ds.width root
    x_tree := xLeavesF ext h ds
    z_tree := zLeavesF ext h fmul ds root }

/-- Modelled from the spec: flatten the supplied matrices in the given
outer-to-inner order into one sequence of field elements, then form one
leaf per element, the 256-bit hash of the element's canonical big-endian
byte encoding. -/
def specOrderedLeaves (h : List Nat → List Nat)
    (matrices : List (List (List Felt))) : List (List Nat) :=
  ((matrices.map (fun m => m.flatten)).flatten).map (fun elem => h (beBytes 16 elem))

/-! Concrete fixtures for witnesses and counterexamples. -/

/-- The identity-doubling encoder of the spec's end-to-end example. -/
def dupEnc : List Felt → Option (List Felt) := fun v => some (v ++ v)

/-- The extension half of `dupEnc`. -/
def idExt : List Felt → List Felt := fun v => v

/-- A stand-in 256-bit hash for concrete evaluations. -/
def hTest : List Nat → List Nat := fun _ => List.range 32

/-- A stand-in field multiplication for concrete evaluations. -/
def fmulTest : Felt → Felt → Felt := fun a b => a * b

/-! Basic list-access lemmas. -/

theorem get?_getD {α : Type} :
    ∀ (l : List α) (i : Nat), i < l.length → ∀ d : α, l.get? i = some (l.getD i d)
  | a :: l, 0, _, d => rfl
  | a :: l, i + 1, hi, d => get?_getD l i (Nat.lt_of_succ_lt_succ hi) d

theorem getD_of_get? {α : Type} {l : List α} {i : Nat} {x : α} (d : α)
    (hx : l.get? i = some x) : l.getD i d = x := by
  have hi : i < l.length := by
    by_contra hge
    rw [List.get?_eq_none.mpr (Nat.le_of_not_lt hge)] at hx
    exact Option.noConfusion hx
  have := get?_getD l i hi d
  rw [hx] at this
  exact (Option.some_injective _ this).symm

/-! Lemmas about the fallible traversals. -/

theorem mapOption_eq_some_map {α β : Type} {f : α → Option β} {g : α → β} :
    ∀ {l : List α}, (∀ a ∈ l, f a = some (g a)) → mapOption f l = some (l.map g)
  | [], _ => rfl
  | a :: l, hl => by
    have ha := hl a (List.mem_cons_self a l)
    have ih := mapOption_eq_some_map (fun x hx => hl x (List.mem_cons_of_mem a hx))
    simp [mapOption, ha, ih]

theorem mapOption_eq_none {α β : Type} {f : α → Option β} :
    ∀ {l : List α} {a : α}, a ∈ l → f a = none → mapOption f l = none := by
  intro l
  induction l with
  | nil => intro a ha _; cases ha
  | cons b l ih =>
    intro a ha hfa
    rcases List.mem_cons.mp ha with rfl | ha
    · simp [mapOption, hfa]
    · cases hfb : f b with
      | none => simp [mapOption, hfb]
      | some v => simp [mapOption, hfb, ih ha hfa]

theorem mapExcept_eq_ok_map {ε α β : Type} {f : α → Except ε β} {g : α → β} :
    ∀ {l : List α}, (∀ a ∈ l, f a = Except.ok (g a)) →
      mapExcept f l = Except.ok (l.map g)
  | [], _ => rfl
  | a :: l, hl => by
    have ha := hl a (List.mem_cons_self a l)
    have ih := mapExcept_eq_ok_map (fun x hx => hl x (List.mem_cons_of_mem a hx))
    simp [mapExcept, ha, ih]

/-! Lemmas about `transposeTotal` and `transpose`. -/

theorem transposeTotal_length (m : List (List Felt)) :
    (transposeTotal m).length = m.length := by
  simp [transposeTotal]

theorem transposeTotal_get? (m : List (List Felt)) (i : Nat) (hi : i < m.length) :
    (transposeTotal m).get? i = some (m.map (fun col => col.getD i 0)) := by
  unfold transposeTotal
  rw [List.get?_map, List.get?_range hi]
  rfl

theorem transposeTotal_row_length (m : List (List Felt)) (r : List Felt)
    (hr : r ∈ transposeTotal m) : r.length = m.length := by
  simp only [transposeTotal, List.mem_map, List.mem_range] at hr
  obtain ⟨i, -, rfl⟩ := hr
  simp

theorem transposeTotal_entry (m : List (List Felt)) (i j : Nat)
    (hi : i < m.length) (hj : j < m.length) :
    ((transposeTotal m).getD i []).getD j 0 = (m.getD j []).getD i 0 := by
  rw [getD_of_get? [] (transposeTotal_get? m i hi)]
  have hj' : (m.map (fun col => col.getD i 0)).get? j =
      some ((m.getD j []).getD i 0) := by
    rw [List.get?_map, get?_getD m j hj []]
    rfl
  exact getD_of_get? 0 hj'

theorem transpose_eq_total (m : List (List Felt))
    (hb : ∀ col ∈ m, m.length ≤ col.length) :
    transpose m = some (transposeTotal m) := by
  unfold transpose transposeTotal
  apply mapOption_eq_some_map
  intro i hi
  rw [List.mem_range] at hi
  apply mapOption_eq_some_map
  intro col hcol
  exact get?_getD col i (Nat.lt_of_lt_of_le hi (hb col hcol)) 0

theorem transpose_none (m : List (List Felt)) (col : List Felt)
    (hc : col ∈ m) (hlt : col.length < m.length) : transpose m = none := by
  unfold transpose
  apply mapOption_eq_none (a := col.length) (List.mem_range.mpr hlt)
  exact mapOption_eq_none hc (List.get?_eq_none.mpr (Nat.le_refl _))

/-! Lemmas about the Merkle root computation. -/

theorem mergeLevel_length (h : List Nat → List Nat) :
    ∀ l : List (List Nat), (mergeLevel h l).length = (l.length + 1) / 2
  | [] => rfl
  | [x] => by simp [mergeLevel]
  | a :: b :: rest => by
    simp only [mergeLevel, List.length_cons, mergeLevel_length h rest]
    omega

theorem rootLoop_isSome (h : List Nat → List Nat) :
    ∀ (fuel : Nat) (l : List (List Nat)), l ≠ [] → l.length ≤ fuel + 1 →
      (rootLoop h fuel l).isSome := by
  intro fuel
  induction fuel with
  | zero =>
    intro l hne hlen
    match l, hne, hlen with
    | [x], _, _ => simp [rootLoop]
    | a :: b :: rest, _, hlen => simp at hlen
  | succ f ih =>
    intro l hne hlen
    match l with
    | [x] => simp [rootLoop]
    | a :: b :: rest =>
      have hm := mergeLevel_length h (a :: b :: rest)
      have hne2 : mergeLevel h (a :: b :: rest) ≠ [] := by
        intro hnil
        rw [hnil] at hm
        simp only [List.length_nil, List.length_cons] at hm
        omega
      have hlen2 : (mergeLevel h (a :: b :: rest)).length ≤ f + 1 := by
        rw [hm]
        simp only [List.length_cons] at hlen ⊢
        omega
      simpa [rootLoop] using ih (mergeLevel h (a :: b :: rest)) hne2 hlen2

theorem merkleRoot_isSome (h : List Nat → List Nat) (l : List (List Nat))
    (hne : l ≠ []) : ∃ r, merkleRoot h l = some r := by
  have := rootLoop_isSome h l.length l hne (Nat.le_succ _)
  exact Option.isSome_iff_exists.mp this

/-! Lemmas about scaling and `mulCols`. -/

theorem mulCols_eq (fmul : Felt → Felt → Felt) (dr : List Felt) :
    ∀ (m : List (List Felt)) (k : Nat), k + m.length ≤ dr.length →
      mulCols fmul dr k m = some (scaleFrom fmul dr k m)
  | [], k, _ => rfl
  | col :: rest, k, hk => by
    have hklt : k < dr.length := by
      simp only [List.length_cons] at hk
      omega
    have hd : dr.get? k = some (dr.getD k 0) := get?_getD dr k hklt 0
    have ih := mulCols_eq fmul dr rest (k + 1) (by
      simp only [List.length_cons] at hk
      omega)
    simp only [mulCols, scaleFrom, ih, Option.map_some', hd]

theorem scaleFrom_length (fmul : Felt → Felt → Felt) (dr : List Felt) :
    ∀ (m : List (List Felt)) (k : Nat), (scaleFrom fmul dr k m).length = m.length
  | [], _ => rfl
  | col :: rest, k => by
    simp [scaleFrom, scaleFrom_length fmul dr rest (k + 1)]

theorem scaleFrom_get? (fmul : Felt → Felt → Felt) (dr : List Felt) :
    ∀ (m : List (List Felt)) (k j : Nat), j < m.length →
      (scaleFrom fmul dr k m).get? j =
        some ((m.getD j []).map (fun elem => fmul elem (dr.getD (k + j) 0)))
  | [], _, j, hj => absurd hj (by simp)
  | col :: rest, k, 0, _ => by simp [scaleFrom]
  | col :: rest, k, j + 1, hj => by
    have ih := scaleFrom_get? fmul dr rest (k + 1) j (Nat.lt_of_succ_lt_succ hj)
    simpa [scaleFrom, Nat.add_assoc, Nat.add_comm 1 j] using ih

theorem scaleFrom_mem_length (fmul : Felt → Felt → Felt) (dr : List Felt) :
    ∀ (m : List (List Felt)) (k : Nat) (c : List Felt),
      c ∈ scaleFrom fmul dr k m → ∃ col ∈ m, c.length = col.length
  | [], _, c, hc => absurd hc (by simp [scaleFrom])
  | col :: rest, k, c, hc => by
    simp only [scaleFrom, List.mem_cons] at hc
    rcases hc with rfl | hc
    · exact ⟨col, List.mem_cons_self col rest, by simp⟩
    · obtain ⟨col', hm, hl⟩ := scaleFrom_mem_length fmul dr rest (k + 1) c hc
      exact ⟨col', List.mem_cons_of_mem col hm, hl⟩

/-! Lemmas about `extendCols`. -/

theorem extendCols_length :
    ∀ (b e : List (List Felt)), (extendCols b e).length = b.length
  | [], _ => rfl
  | x :: xs, [] => rfl
  | x :: xs, y :: ys => by simp [extendCols, extendCols_length xs ys]

theorem extendCols_get?_lt :
    ∀ (b e : List (List Felt)) (i : Nat), i < b.length → i < e.length →
      (extendCols b e).get? i = some ((b.getD i []) ++ (e.getD i []))
  | [], _, i, hb, _ => absurd hb (by simp)
  | x :: xs, [], i, _, he => absurd he (by simp)
  | x :: xs, y :: ys, 0, _, _ => by simp [extendCols]
  | x :: xs, y :: ys, i + 1, hb, he => by
    have ih := extendCols_get?_lt xs ys i (Nat.lt_of_succ_lt_succ hb)
      (Nat.lt_of_succ_lt_succ he)
    simpa [extendCols] using ih

theorem get?_lt {α : Type} {l : List α} {n : Nat} {a : α}
    (hg : l.get? n = some a) : n < l.length := by
  by_contra hge
  rw [List.get?_eq_none.mpr (Nat.le_of_not_lt hge)] at hg
  exact Option.noConfusion hg

theorem extendCols_mem (b e : List (List Felt)) (hlen : b.length = e.length)
    (c : List Felt) (hc : c ∈ extendCols b e) :
    ∃ i, i < b.length ∧ c = b.getD i [] ++ e.getD i [] := by
  obtain ⟨n, hn⟩ := List.mem_iff_get?.mp hc
  have hlt : n < b.length := by
    have := get?_lt hn
    rwa [extendCols_length b e] at this
  refine ⟨n, hlt, ?_⟩
  rw [extendCols_get?_lt b e n hlt (hlen ▸ hlt)] at hn
  exact (Option.some_injective _ hn).symm

/-! Pipeline stage lemmas. -/

theorem create_q3_eq (enc : List Felt → Option (List Felt))
    (ext : List Felt → List Felt) (ds : DataSquare)
    (henc : SysDoublingWith enc ext) :
    create_q3 enc ds = Except.ok (q3F ext ds) := by
  unfold create_q3 q3F
  apply mapExcept_eq_ok_map
  intro col _
  rw [(henc col).1]

theorem q3F_col_length (ext : List Felt → List Felt) (ds : DataSquare)
    (hcols : ∀ col ∈ ds.q1_cols, col.length = ds.width)
    (hext : ∀ v, (ext v).length = v.length) :
    ∀ c ∈ q3F ext ds, c.length = 2 * ds.width := by
  intro c hc
  simp only [q3F, List.mem_map] at hc
  obtain ⟨col, hm, rfl⟩ := hc
  simp [hext col, hcols col hm]
  omega

theorem q3F_get? (ext : List Felt → List Felt) (ds : DataSquare) (i : Nat)
    (hi : i < ds.q1_cols.length) :
    (q3F ext ds).get? i =
      some ((ds.q1_cols.getD i []) ++ ext (ds.q1_cols.getD i [])) := by
  unfold q3F
  rw [List.get?_map, get?_getD ds.q1_cols i hi []]
  rfl

theorem encRows_mem_length (ext : List Felt → List Felt)
    (rows : List (List Felt)) (hext : ∀ v, (ext v).length = v.length)
    (n : Nat) (hrows : ∀ r ∈ rows, r.length = n) :
    ∀ c ∈ encRows ext rows, c.length = 2 * n := by
  intro c hc
  simp only [encRows, List.mem_map] at hc
  obtain ⟨r, hm, rfl⟩ := hc
  simp [hext r, hrows r hm]
  omega

theorem extend_quadrant_eq (enc : List Felt → Option (List Felt))
    (ext : List Felt → List Felt) (column_data : List (List Felt))
    (henc : SysDoublingWith enc ext)
    (hb : ∀ c ∈ column_data, column_data.length ≤ c.length) :
    extend_quadrant enc column_data =
      Except.ok (encRows ext (transposeTotal column_data)) := by
  unfold extend_quadrant
  rw [transpose_eq_total column_data hb]
  apply mapExcept_eq_ok_map
  intro row _
  rw [(henc row).1]

theorem create_tree_ne_nil (h : List Nat → List Nat) (m : List (List Felt))
    (rest : List (List (List Felt))) (col : List Felt) (hc : col ∈ m)
    (hcol : col ≠ []) : create_tree h (m :: rest) ≠ [] := by
  unfold create_tree
  rw [List.flatten_cons, List.flatMap_append]
  simp only [ne_eq, List.append_eq_nil, not_and]
  intro hm
  rw [List.flatMap_eq_nil_iff] at hm
  have := hm col hc
  rw [List.map_eq_nil_iff] at this
  exact absurd this hcol

theorem create_dr_length (h : List Nat → List Nat) (width : Nat)
    (root : List Nat) : (create_dr h width root).length = width := by
  simp [create_dr]

theorem create_dr_get? (h : List Nat → List Nat) (width : Nat)
    (root : List Nat) (i : Nat) (hi : i < width) :
    (create_dr h width root).get? i =
      some (feltNew (fromBeBytes ((h (root ++ beBytes 8 i)).take 16))) := by
  unfold create_dr
  rw [List.get?_map, List.get?_range hi]
  rfl

theorem getD_mem {α : Type} (l : List α) (i : Nat) (d : α) (hi : i < l.length) :
    l.getD i d ∈ l :=
  List.get?_mem (get?_getD l i hi d)

theorem from_cols_eq (q1 q2 q3 q4 : List (List Felt)) (dr : List Felt)
    (x z : List (List Nat))
    (hb : ∀ c ∈ extendCols q1 q3 ++ extendCols q2 q4,
      (extendCols q1 q3 ++ extendCols q2 q4).length ≤ c.length) :
    from_cols q1 q2 q3 q4 dr x z = some
      { cols := extendCols q1 q3 ++ extendCols q2 q4,
        rows := transposeTotal (extendCols q1 q3 ++ extendCols q2 q4),
        dr := dr, x_tree := x, z_tree := z } := by
  unfold from_cols
  simp only [transpose_eq_total _ hb, Option.map_some']

/-- The master run lemma: on a valid data square of positive width, with a
systematic doubling encoder, `extend` succeeds and produces exactly the
closed-form extended data square `edsF`, keyed by the first commitment
root. -/
theorem extend_run (enc : List Felt → Option (List Felt))
    (ext : List Felt → List Felt) (h : List Nat → List Nat)
    (fmul : Felt → Felt → Felt) (ds : DataSquare)
    (hv : ValidSquare ds) (hw : 0 < ds.width)
    (henc : SysDoublingWith enc ext) :
    ∃ root, merkleRoot h (xLeavesF ext h ds) = some root ∧
      extend enc h fmul ds = Except.ok (edsF ext h fmul ds root) := by
  obtain ⟨hlen, hcols⟩ := hv
  have hext : ∀ v, (ext v).length = v.length := fun v => (henc v).2
  have hq3 : create_q3 enc ds = Except.ok (q3F ext ds) := create_q3_eq enc ext ds henc
  have hq3len : (q3F ext ds).length = ds.width := by simp [q3F, hlen]
  have hq3cols : ∀ c ∈ q3F ext ds, c.length = 2 * ds.width :=
    q3F_col_length ext ds hcols hext
  have htq1 : transpose ds.q1_cols = some (transposeTotal ds.q1_cols) := by
    apply transpose_eq_total
    intro col hc
    rw [hlen, hcols col hc]
  have htq3 : transpose (q3F ext ds) = some (transposeTotal (q3F ext ds)) := by
    apply transpose_eq_total
    intro col hc
    rw [hq3len, hq3cols col hc]
    omega
  have hx_ne : create_tree h [transposeTotal ds.q1_cols,
      transposeTotal (q3F ext ds)] ≠ [] := by
    have h0 : (transposeTotal ds.q1_cols).get? 0 =
        some (ds.q1_cols.map (fun col => col.getD 0 0)) :=
      transposeTotal_get? ds.q1_cols 0 (by rw [hlen]; exact hw)
    apply create_tree_ne_nil h _ _ _ (List.get?_mem h0)
    intro hnil
    rw [List.map_eq_nil_iff] at hnil
    rw [hnil] at hlen
    simp only [List.length_nil] at hlen
    omega
  obtain ⟨root, hroot⟩ := merkleRoot_isSome h _ hx_ne
  have hdrlen : (create_dr h ds.width root).length = ds.width :=
    create_dr_length h ds.width root
  have hm1 : multiply_dr fmul ds.q1_cols (create_dr h ds.width root) =
      some (scaleCols fmul (create_dr h ds.width root) ds.q1_cols) := by
    unfold multiply_dr scaleCols
    apply mulCols_eq
    rw [hdrlen, hlen]
    omega
  have hm3 : multiply_dr fmul (q3F ext ds) (create_dr h ds.width root) =
      some (scaleCols fmul (create_dr h ds.width root) (q3F ext ds)) := by
    unfold multiply_dr scaleCols
    apply mulCols_eq
    rw [hdrlen, hq3len]
    omega
  have hq1s_len : (scaleCols fmul (create_dr h ds.width root) ds.q1_cols).length =
      ds.width := by
    unfold scaleCols
    rw [scaleFrom_length, hlen]
  have hq1s_cols : ∀ c ∈ scaleCols fmul (create_dr h ds.width root) ds.q1_cols,
      c.length = ds.width := by
    intro c hc
    obtain ⟨col, hm, hl⟩ := scaleFrom_mem_length fmul _ ds.q1_cols 0 c hc
    rw [hl, hcols col hm]
  have hq3s_len : (scaleCols fmul (create_dr h ds.width root) (q3F ext ds)).length =
      ds.width := by
    unfold scaleCols
    rw [scaleFrom_length, hq3len]
  have hq3s_cols : ∀ c ∈ scaleCols fmul (create_dr h ds.width root) (q3F ext ds),
      c.length = 2 * ds.width := by
    intro c hc
    obtain ⟨col, hm, hl⟩ := scaleFrom_mem_length fmul _ (q3F ext ds) 0 c hc
    rw [hl, hq3cols col hm]
  have hq2 : extend_quadrant enc (scaleCols fmul (create_dr h ds.width root) ds.q1_cols) =
      Except.ok (encRows ext (transposeTotal
        (scaleCols fmul (create_dr h ds.width root) ds.q1_cols))) := by
    apply extend_quadrant_eq enc ext _ henc
    intro c hc
    rw [hq1s_len, hq1s_cols c hc]
  have hq4 : extend_quadrant enc (scaleCols fmul (create_dr h ds.width root) (q3F ext ds)) =
      Except.ok (encRows ext (transposeTotal
        (scaleCols fmul (create_dr h ds.width root) (q3F ext ds)))) := by
    apply extend_quadrant_eq enc ext _ henc
    intro c hc
    rw [hq3s_len, hq3s_cols c hc]
    omega
  have hq2r_len : (encRows ext (transposeTotal
      (scaleCols fmul (create_dr h ds.width root) ds.q1_cols))).length = ds.width := by
    simp [encRows, transposeTotal_length, hq1s_len]
  have hq2r_rows : ∀ c ∈ encRows ext (transposeTotal
      (scaleCols fmul (create_dr h ds.width root) ds.q1_cols)),
      c.length = 2 * ds.width := by
    apply encRows_mem_length ext _ hext
    intro r hr
    rw [transposeTotal_row_length _ r hr, hq1s_len]
  have hq4r_len : (encRows ext (transposeTotal
      (scaleCols fmul (create_dr h ds.width root) (q3F ext ds)))).length = ds.width := by
    simp [encRows, transposeTotal_length, hq3s_len]
  have hq4r_rows : ∀ c ∈ encRows ext (transposeTotal
      (scaleCols fmul (create_dr h ds.width root) (q3F ext ds))),
      c.length = 2 * ds.width := by
    apply encRows_mem_length ext _ hext
    intro r hr
    rw [transposeTotal_row_length _ r hr, hq3s_len]
  have htq2 : transpose (encRows ext (transposeTotal
      (scaleCols fmul (create_dr h ds.width root) ds.q1_cols))) =
      some (transposeTotal (encRows ext (transposeTotal
        (scaleCols fmul (create_dr h ds.width root) ds.q1_cols)))) := by
    apply transpose_eq_total
    intro c hc
    rw [hq2r_len, hq2r_rows c hc]
    omega
  have htq4 : transpose (encRows ext (transposeTotal
      (scaleCols fmul (create_dr h ds.width root) (q3F ext ds)))) =
      some (transposeTotal (encRows ext (transposeTotal
        (scaleCols fmul (create_dr h ds.width root) (q3F ext ds))))) := by
    apply transpose_eq_total
    intro c hc
    rw [hq4r_len, hq4r_rows c hc]
    omega
  have hleft_len : (extendCols ds.q1_cols (q3F ext ds)).length = ds.width := by
    rw [extendCols_length, hlen]
  have hright_len : (extendCols
      (transposeTotal (encRows ext (transposeTotal
        (scaleCols fmul (create_dr h ds.width root) ds.q1_cols))))
      (transposeTotal (encRows ext (transposeTotal
        (scaleCols fmul (create_dr h ds.width root) (q3F ext ds)))))).length =
      ds.width := by
    rw [extendCols_length, transposeTotal_length, hq2r_len]
  have hball : ∀ c ∈ extendCols ds.q1_cols (q3F ext ds) ++ extendCols
      (transposeTotal (encRows ext (transposeTotal
        (scaleCols fmul (create_dr h ds.width root) ds.q1_cols))))
      (transposeTotal (encRows ext (transposeTotal
        (scaleCols fmul (create_dr h ds.width root) (q3F ext ds))))),
      (extendCols ds.q1_cols (q3F ext ds) ++ extendCols
        (transposeTotal (encRows ext (transposeTotal
          (scaleCols fmul (create_dr h ds.width root) ds.q1_cols))))
        (transposeTotal (encRows ext (transposeTotal
          (scaleCols fmul (create_dr h ds.width root) (q3F ext ds)))))).length ≤
        c.length := by
    intro c hc
    rw [List.length_append, hleft_len, hright_len]
    rcases List.mem_append.mp hc with hc | hc
    · obtain ⟨i, hi, rfl⟩ := extendCols_mem _ _ (by rw [hlen, hq3len]) c hc
      rw [List.length_append]
      have h1 : (ds.q1_cols.getD i []).length = ds.width :=
        hcols _ (getD_mem ds.q1_cols i [] hi)
      have h2 : ((q3F ext ds).getD i []).length = 2 * ds.width :=
        hq3cols _ (getD_mem (q3F ext ds) i [] (by rw [hq3len, ← hlen]; exact hi))
      rw [h1, h2]
      omega
    · obtain ⟨i, hi, rfl⟩ := extendCols_mem _ _
        (by rw [transposeTotal_length, transposeTotal_length, hq2r_len, hq4r_len]) c hc
      rw [List.length_append]
      have h1 := transposeTotal_row_length _ _
        (getD_mem (transposeTotal (encRows ext (transposeTotal
          (scaleCols fmul (create_dr h ds.width root) ds.q1_cols)))) i [] hi)
      have hi4 : i < (transposeTotal (encRows ext (transposeTotal
          (scaleCols fmul (create_dr h ds.width root) (q3F ext ds))))).length := by
        rw [transposeTotal_length, hq4r_len]
        rw [transposeTotal_length, hq2r_len] at hi
        exact hi
      have h2 := transposeTotal_row_length _ _
        (getD_mem (transposeTotal (encRows ext (transposeTotal
          (scaleCols fmul (create_dr h ds.width root) (q3F ext ds))))) i [] hi4)
      rw [h1, h2, hq2r_len, hq4r_len]
  have hfc := from_cols_eq ds.q1_cols
    (transposeTotal (encRows ext (transposeTotal
      (scaleCols fmul (create_dr h ds.width root) ds.q1_cols))))
    (q3F ext ds)
    (transposeTotal (encRows ext (transposeTotal
      (scaleCols fmul (create_dr h ds.width root) (q3F ext ds)))))
    (create_dr h ds.width root)
    (create_tree h [transposeTotal ds.q1_cols, transposeTotal (q3F ext ds)])
    (create_tree h [scaleCols fmul (create_dr h ds.width root) ds.q1_cols,
      transposeTotal (encRows ext (transposeTotal
        (scaleCols fmul (create_dr h ds.width root) ds.q1_cols))),
      scaleCols fmul (create_dr h ds.width root) (q3F ext ds),
      transposeTotal (encRows ext (transposeTotal
        (scaleCols fmul (create_dr h ds.width root) (q3F ext ds))))])
    hball
  refine ⟨root, hroot, ?_⟩
  simp only [edsF, colsF, zLeavesF, q2rF, q4rF, q1sF, q3sF, xLeavesF]
  unfold extend
  simp only [hq3, htq1, htq3, hroot, hm1, hm3, hq2, hq4, htq2, htq4, hfc]

/-! Standalone versions of the stage facts, for use in the claim
theorems. -/

theorem transpose_q1_eq (ds : DataSquare)
    (hlen : ds.q1_cols.length = ds.width)
    (hcols : ∀ col ∈ ds.q1_cols, col.length = ds.width) :
    transpose ds.q1_cols = some (transposeTotal ds.q1_cols) := by
  apply transpose_eq_total
  intro col hc
  rw [hlen, hcols col hc]

theorem transpose_q3F_eq (ext : List Felt → List Felt) (ds : DataSquare)
    (hlen : ds.q1_cols.length = ds.width)
    (hcols : ∀ col ∈ ds.q1_cols, col.length = ds.width)
    (hext : ∀ v, (ext v).length = v.length) :
    transpose (q3F ext ds) = some (transposeTotal (q3F ext ds)) := by
  apply transpose_eq_total
  intro col hc
  rw [show (q3F ext ds).length = ds.width by simp [q3F, hlen],
    q3F_col_length ext ds hcols hext col hc]
  omega

theorem multiply_dr_q1_eq (h : List Nat → List Nat) (fmul : Felt → Felt → Felt)
    (ds : DataSquare) (root : List Nat) (hlen : ds.q1_cols.length = ds.width) :
    multiply_dr fmul ds.q1_cols (create_dr h ds.width root) =
      some (q1sF h fmul ds root) := by
  unfold multiply_dr q1sF scaleCols
  apply mulCols_eq
  rw [create_dr_length, hlen]
  omega

theorem multiply_dr_q3_eq (ext : List Felt → List Felt) (h : List Nat → List Nat)
    (fmul : Felt → Felt → Felt) (ds : DataSquare) (root : List Nat)
    (hlen : ds.q1_cols.length = ds.width) :
    multiply_dr fmul (q3F ext ds) (create_dr h ds.width root) =
      some (q3sF ext h fmul ds root) := by
  unfold multiply_dr q3sF scaleCols
  apply mulCols_eq
  rw [create_dr_length]
  simp [q3F, hlen]

theorem q1sF_length (h : List Nat → List Nat) (fmul : Felt → Felt → Felt)
    (ds : DataSquare) (root : List Nat) (hlen : ds.q1_cols.length = ds.width) :
    (q1sF h fmul ds root).length = ds.width := by
  unfold q1sF scaleCols
  rw [scaleFrom_length, hlen]

theorem q1sF_cols (h : List Nat → List Nat) (fmul : Felt → Felt → Felt)
    (ds : DataSquare) (root : List Nat)
    (hcols : ∀ col ∈ ds.q1_cols, col.length = ds.width) :
    ∀ c ∈ q1sF h fmul ds root, c.length = ds.width := by
  intro c hc
  obtain ⟨col, hm, hl⟩ := scaleFrom_mem_length fmul _ ds.q1_cols 0 c hc
  rw [hl, hcols col hm]

theorem q3sF_length (ext : List Felt → List Felt) (h : List Nat → List Nat)
    (fmul : Felt → Felt → Felt) (ds : DataSquare) (root : List Nat)
    (hlen : ds.q1_cols.length = ds.width) :
    (q3sF ext h fmul ds root).length = ds.width := by
  unfold q3sF scaleCols
  rw [scaleFrom_length]
  simp [q3F, hlen]

theorem q3sF_cols (ext : List Felt → List Felt) (h : List Nat → List Nat)
    (fmul : Felt → Felt → Felt) (ds : DataSquare) (root : List Nat)
    (hcols : ∀ col ∈ ds.q1_cols, col.length = ds.width)
    (hext : ∀ v, (ext v).length = v.length) :
    ∀ c ∈ q3sF ext h fmul ds root, c.length = 2 * ds.width := by
  intro c hc
  obtain ⟨col, hm, hl⟩ := scaleFrom_mem_length fmul _ (q3F ext ds) 0 c hc
  rw [hl, q3F_col_length ext ds hcols hext col hm]

theorem extend_quadrant_q1s (enc : List Felt → Option (List Felt))
    (ext : List Felt → List Felt) (h : List Nat → List Nat)
    (fmul : Felt → Felt → Felt) (ds : DataSquare) (root : List Nat)
    (henc : SysDoublingWith enc ext) (hlen : ds.q1_cols.length = ds.width)
    (hcols : ∀ col ∈ ds.q1_cols, col.length = ds.width) :
    extend_quadrant enc (q1sF h fmul ds root) =
      Except.ok (q2rF ext h fmul ds root) := by
  apply extend_quadrant_eq enc ext _ henc
  intro c hc
  rw [q1sF_length h fmul ds root hlen, q1sF_cols h fmul ds root hcols c hc]

theorem extend_quadrant_q3s (enc : List Felt → Option (List Felt))
    (ext : List Felt → List Felt) (h : List Nat → List Nat)
    (fmul : Felt → Felt → Felt) (ds : DataSquare) (root : List Nat)
    (henc : SysDoublingWith enc ext) (hlen : ds.q1_cols.length = ds.width)
    (hcols : ∀ col ∈ ds.q1_cols, col.length = ds.width) :
    extend_quadrant enc (q3sF ext h fmul ds root) =
      Except.ok (q4rF ext h fmul ds root) := by
  apply extend_quadrant_eq enc ext _ henc
  intro c hc
  rw [q3sF_length ext h fmul ds root hlen,
    q3sF_cols ext h fmul ds root hcols (fun v => (henc v).2) c hc]
  omega

theorem q2rF_length (ext : List Felt → List Felt) (h : List Nat → List Nat)
    (fmul : Felt → Felt → Felt) (ds : DataSquare) (root : List Nat)
    (hlen : ds.q1_cols.length = ds.width) :
    (q2rF ext h fmul ds root).length = ds.width := by
  unfold q2rF
  simp [encRows, transposeTotal_length, q1sF_length h fmul ds root hlen]

theorem q2rF_rows (ext : List Felt → List Felt) (h : List Nat → List Nat)
    (fmul : Felt → Felt → Felt) (ds : DataSquare) (root : List Nat)
    (hlen : ds.q1_cols.length = ds.width)
    (hext : ∀ v, (ext v).length = v.length) :
    ∀ c ∈ q2rF ext h fmul ds root, c.length = 2 * ds.width := by
  unfold q2rF
  apply encRows_mem_length ext _ hext
  intro r hr
  rw [transposeTotal_row_length _ r hr, q1sF_length h fmul ds root hlen]

theorem q4rF_length (ext : List Felt → List Felt) (h : List Nat → List Nat)
    (fmul : Felt → Felt → Felt) (ds : DataSquare) (root : List Nat)
    (hlen : ds.q1_cols.length = ds.width) :
    (q4rF ext h fmul ds root).length = ds.width := by
  unfold q4rF
  simp [encRows, transposeTotal_length, q3sF_length ext h fmul ds root hlen]

theorem q4rF_rows (ext : List Felt → List Felt) (h : List Nat → List Nat)
    (fmul : Felt → Felt → Felt) (ds : DataSquare) (root : List Nat)
    (hlen : ds.q1_cols.length = ds.width)
    (hext : ∀ v, (ext v).length = v.length) :
    ∀ c ∈ q4rF ext h fmul ds root, c.length = 2 * ds.width := by
  unfold q4rF
  apply encRows_mem_length ext _ hext
  intro r hr
  rw [transposeTotal_row_length _ r hr, q3sF_length ext h fmul ds root hlen]

theorem transpose_q2rF (ext : List Felt → List Felt) (h : List Nat → List Nat)
    (fmul : Felt → Felt → Felt) (ds : DataSquare) (root : List Nat)
    (hlen : ds.q1_cols.length = ds.width)
    (hext : ∀ v, (ext v).length = v.length) :
    transpose (q2rF ext h fmul ds root) =
      some (transposeTotal (q2rF ext h fmul ds root)) := by
  apply transpose_eq_total
  intro c hc
  rw [q2rF_length ext h fmul ds root hlen, q2rF_rows ext h fmul ds root hlen hext c hc]
  omega

theorem transpose_q4rF (ext : List Felt → List Felt) (h : List Nat → List Nat)
    (fmul : Felt → Felt → Felt) (ds : DataSquare) (root : List Nat)
    (hlen : ds.q1_cols.length = ds.width)
    (hext : ∀ v, (ext v).length = v.length) :
    transpose (q4rF ext h fmul ds root) =
      some (transposeTotal (q4rF ext h fmul ds root)) := by
  apply transpose_eq_total
  intro c hc
  rw [q4rF_length ext h fmul ds root hlen, q4rF_rows ext h fmul ds root hlen hext c hc]
  omega

/-- The source's flattening and the spec's flattening produce the same
ordered leaf list. -/
theorem create_tree_eq_spec (h : List Nat → List Nat)
    (ms : List (List (List Felt))) : create_tree h ms = specOrderedLeaves h ms := by
  induction ms with
  | nil => rfl
  | cons m rest ih =>
    unfold create_tree specOrderedLeaves at ih ⊢
    simp only [List.flatten_cons, List.flatMap_append, List.map_cons,
      List.map_append, ih]
    congr 1
    simp [List.flatMap_def, List.map_flatten]

theorem getD_eq_get?_getD {α : Type} :
    ∀ (l : List α) (n : Nat) (d : α), l.getD n d = (l.get? n).getD d
  | [], 0, _ => rfl
  | [], _ + 1, _ => rfl
  | _ :: _, 0, _ => rfl
  | _ :: l, n + 1, d => getD_eq_get?_getD l n d

theorem replicate_get? {α : Type} :
    ∀ (n m : Nat) (a : α), m < n → (List.replicate n a).get? m = some a
  | n + 1, 0, _, _ => rfl
  | n + 1, m + 1, a, hm => replicate_get? n m a (Nat.lt_of_succ_lt_succ hm)
  | 0, m, _, hm => absurd hm (Nat.not_lt_zero m)

theorem transposeTotal_involution (m : List (List Felt))
    (hsq : ∀ col ∈ m, col.length = m.length) :
    transposeTotal (transposeTotal m) = m := by
  apply List.ext_get?
  intro n
  by_cases hn : n < m.length
  · rw [transposeTotal_get? _ n (by rw [transposeTotal_length]; exact hn),
      get?_getD m n hn []]
    congr 1
    apply List.ext_get?
    intro j
    by_cases hj : j < m.length
    · rw [List.get?_map,
        get?_getD (transposeTotal m) j (by rw [transposeTotal_length]; exact hj) []]
      simp only [Option.map_some']
      rw [transposeTotal_entry m j n hj hn,
        get?_getD (m.getD n []) j (by rw [hsq _ (getD_mem m n [] hn)]; exact hj) 0]
    · rw [List.get?_eq_none.mpr (by
          rw [List.length_map, transposeTotal_length]
          omega),
        List.get?_eq_none.mpr (by
          rw [hsq _ (getD_mem m n [] hn)]
          omega)]
  · rw [List.get?_eq_none.mpr (by
        rw [transposeTotal_length, transposeTotal_length]
        omega),
      List.get?_eq_none.mpr (by omega)]

/-- C10: the source's `transpose` yields exactly `n` rows for an `n`-column
matrix when every column has at least `n` elements (entries beyond index
`n` are dropped, each row having exactly `n` entries), panics (modelled as
`none`) when some column is shorter, and composes with itself to the
identity exactly on square matrices. -/
theorem transpose_total_on_square_only (m : List (List Felt)) :
    ((∀ col ∈ m, m.length ≤ col.length) → ∃ t, transpose m = some t ∧
      t.length = m.length ∧ (∀ r ∈ t, r.length = m.length) ∧
      ∀ i j, i < m.length → j < m.length →
        (t.getD i []).getD j 0 = (m.getD j []).getD i 0) ∧
    ((∃ col ∈ m, col.length < m.length) → transpose m = none) ∧
    ((∃ t, transpose m = some t ∧ transpose t = some m) ↔
      ∀ col ∈ m, col.length = m.length) := by
  refine ⟨?_, ?_, ?_⟩
  · intro hb
    exact ⟨transposeTotal m, transpose_eq_total m hb, transposeTotal_length m,
      transposeTotal_row_length m, fun i j hi hj => transposeTotal_entry m i j hi hj⟩
  · rintro ⟨col, hc, hlt⟩
    exact transpose_none m col hc hlt
  · constructor
    · rintro ⟨t, h1, h2⟩
      have hb : ∀ col ∈ m, m.length ≤ col.length := by
        intro col hc
        by_contra hlt
        rw [transpose_none m col hc (Nat.lt_of_not_le hlt)] at h1
        exact Option.noConfusion h1
      have ht : t = transposeTotal m := by
        rw [transpose_eq_total m hb] at h1
        exact (Option.some_injective _ h1).symm
      subst ht
      have hbt : ∀ r ∈ transposeTotal m, (transposeTotal m).length ≤ r.length := by
        intro r hr
        rw [transposeTotal_length, transposeTotal_row_length m r hr]
      rw [transpose_eq_total _ hbt] at h2
      have hm : transposeTotal (transposeTotal m) = m := Option.some_injective _ h2
      intro col hc
      rw [← hm] at hc
      have hl := transposeTotal_row_length (transposeTotal m) col hc
      rw [transposeTotal_length] at hl
      exact hl
    · intro hsq
      refine ⟨transposeTotal m,
        transpose_eq_total m (fun col hc => Nat.le_of_eq (hsq col hc).symm), ?_⟩
      have hbt : ∀ r ∈ transposeTotal m, (transposeTotal m).length ≤ r.length := by
        intro r hr
        rw [transposeTotal_length, transposeTotal_row_length m r hr]
      rw [transpose_eq_total _ hbt, transposeTotal_involution m hsq]

theorem transpose_total_on_square_only_witness :
    transpose ([[1], [2, 3]] : List (List Felt)) = none ∧
    ¬ (∃ t, transpose ([[1, 2, 9], [3, 4, 9]] : List (List Felt)) = some t ∧
      transpose t = some [[1, 2, 9], [3, 4, 9]]) :=
  ⟨(transpose_total_on_square_only [[1], [2, 3]]).2.1 ⟨[1], by simp, by simp⟩,
   fun hex => by
     have hall := (transpose_total_on_square_only [[1, 2, 9], [3, 4, 9]]).2.2.mp hex
     have h1 := hall [1, 2, 9] (by simp)
     simp at h1⟩

/-- C4: `create_dr` returns exactly `width` field elements; entry `i` is
the field element built from the `u128` read off the first 16 bytes of the
hash of the root bytes followed by the big-endian index. -/
theorem create_dr_challenge_vector (h : List Nat → List Nat) (width : Nat)
    (root : List Nat) :
    (create_dr h width root).length = width ∧
    ∀ i, i < width → (create_dr h width root).get? i =
      some (feltNew (fromBeBytes ((h (root ++ beBytes 8 i)).take 16))) :=
  ⟨create_dr_length h width root, fun i hi => create_dr_get? h width root i hi⟩

theorem create_dr_challenge_vector_witness :
    1 < 2 ∧ (create_dr hTest 2 (List.replicate 32 0)).get? 1 =
      some (feltNew (fromBeBytes
        ((hTest (List.replicate 32 0 ++ beBytes 8 1)).take 16))) :=
  ⟨by decide, (create_dr_challenge_vector hTest 2 (List.replicate 32 0)).2 1 (by decide)⟩

/-- C5: running the pipeline on the empty data square (width 0, no columns)
returns the recoverable commitment error — the leaf set is empty, so the
tree has no root — and neither panics nor substitutes a default root. -/
theorem extend_empty_square_commitment_error (enc : List Felt → Option (List Felt))
    (h : List Nat → List Nat) (fmul : Felt → Felt → Felt) :
    extend enc h fmul { q1_cols := [], width := 0 } =
      Except.error RunError.commitmentError := rfl

/-- C8: on a share list whose length is not a perfect square the layout
constructor panics (aborting the process) instead of returning a
recoverable construction error. -/
theorem dsNew_panics_on_nonsquare_count :
    dsNew [[0], [1], [2]] 1 = BuildOutcome.panicked "DataSquare must be square" := by
  decide

/-- C9: `multiply_dr`, given a challenge vector at least as long as the
matrix, succeeds and multiplies every element of column `i` by `dr[i]`,
leaving no element unscaled. -/
theorem multiply_dr_scales_each_column (fmul : Felt → Felt → Felt)
    (matrix : List (List Felt)) (dr : List Felt)
    (hle : matrix.length ≤ dr.length) :
    ∃ scaled, multiply_dr fmul matrix dr = some scaled ∧
      scaled.length = matrix.length ∧
      ∀ i, i < matrix.length → scaled.get? i =
        some ((matrix.getD i []).map (fun elem => fmul elem (dr.getD i 0))) := by
  refine ⟨scaleCols fmul dr matrix, ?_, ?_, ?_⟩
  · unfold multiply_dr scaleCols
    exact mulCols_eq fmul dr matrix 0 (by omega)
  · unfold scaleCols
    exact scaleFrom_length fmul dr matrix 0
  · intro i hi
    unfold scaleCols
    simpa using scaleFrom_get? fmul dr matrix 0 i hi

theorem multiply_dr_scales_each_column_witness :
    ([[1, 2], [3, 4]] : List (List Felt)).length ≤ ([5, 7] : List Felt).length ∧
    ∃ scaled, multiply_dr fmulTest [[1, 2], [3, 4]] [5, 7] = some scaled ∧
      scaled.length = ([[1, 2], [3, 4]] : List (List Felt)).length ∧
      ∀ i, i < ([[1, 2], [3, 4]] : List (List Felt)).length → scaled.get? i =
        some ((([[1, 2], [3, 4]] : List (List Felt)).getD i []).map
          (fun elem => fmulTest elem (([5, 7] : List Felt).getD i 0))) :=
  ⟨by decide, multiply_dr_scales_each_column fmulTest [[1, 2], [3, 4]] [5, 7] (by decide)⟩

/-- C6: the pipeline is a pure function of `(Q1, width, encoder)` (and of
the fixed hash and field operations): runs on identical inputs yield
identical results, in particular identical first root, challenge vector,
second root and assembled matrices. -/
theorem extend_deterministic (enc : List Felt → Option (List Felt))
    (h : List Nat → List Nat) (fmul : Felt → Felt → Felt)
    (ds1 ds2 : DataSquare) (hq : ds1.q1_cols = ds2.q1_cols)
    (hw : ds1.width = ds2.width) :
    extend enc h fmul ds1 = extend enc h fmul ds2 ∧
    ∀ e1 e2, extend enc h fmul ds1 = Except.ok e1 →
      extend enc h fmul ds2 = Except.ok e2 →
      merkleRoot h e1.x_tree = merkleRoot h e2.x_tree ∧ e1.dr = e2.dr ∧
      merkleRoot h e1.z_tree = merkleRoot h e2.z_tree ∧
      e1.cols = e2.cols ∧ e1.rows = e2.rows := by
  obtain ⟨q1, w1⟩ := ds1
  obtain ⟨q2, w2⟩ := ds2
  simp only at hq hw
  subst hq
  subst hw
  refine ⟨rfl, ?_⟩
  intro e1 e2 h1 h2
  rw [h1] at h2
  have he : e1 = e2 := by
    injection h2
  subst he
  exact ⟨rfl, rfl, rfl, rfl, rfl⟩

theorem extend_deterministic_witness :
    ({ q1_cols := [[5]], width := 1 } : DataSquare).q1_cols =
      ({ q1_cols := [[5]], width := 1 } : DataSquare).q1_cols ∧
    (extend dupEnc hTest fmulTest { q1_cols := [[5]], width := 1 } =
      extend dupEnc hTest fmulTest { q1_cols := [[5]], width := 1 } ∧
    ∀ e1 e2, extend dupEnc hTest fmulTest { q1_cols := [[5]], width := 1 } = Except.ok e1 →
      extend dupEnc hTest fmulTest { q1_cols := [[5]], width := 1 } = Except.ok e2 →
      merkleRoot hTest e1.x_tree = merkleRoot hTest e2.x_tree ∧ e1.dr = e2.dr ∧
      merkleRoot hTest e1.z_tree = merkleRoot hTest e2.z_tree ∧
      e1.cols = e2.cols ∧ e1.rows = e2.rows) :=
  ⟨rfl, extend_deterministic dupEnc hTest fmulTest
    { q1_cols := [[5]], width := 1 } { q1_cols := [[5]], width := 1 } rfl rfl⟩

/-- C1 counterexample: under the spec's own end-to-end example (width-2
square, identity-doubling encoder) `create_q3` returns the full codewords,
whose columns have length 4 — not the extension halves of length 2 — so
Q3 differs from Q1. -/
theorem create_q3_not_extension_half :
    create_q3 dupEnc { q1_cols := [[1, 2], [3, 4]], width := 2 } =
      Except.ok [[1, 2, 1, 2], [3, 4, 3, 4]] ∧
    ([[1, 2, 1, 2], [3, 4, 3, 4]] : List (List Felt)) ≠ [[1, 2], [3, 4]] ∧
    (([[1, 2, 1, 2], [3, 4, 3, 4]] : List (List Felt)).getD 0 []).length ≠ 2 :=
  ⟨rfl, by decide, by decide⟩

/-- C1 amended: `create_q3` returns, per column of Q1, the encoder's whole
codeword — length `2·width` with the column itself as its first `width`
elements — rather than only the extension half. -/
theorem create_q3_full_codewords (enc : List Felt → Option (List Felt))
    (ext : List Felt → List Felt) (ds : DataSquare)
    (henc : SysDoublingWith enc ext)
    (hcols : ∀ col ∈ ds.q1_cols, col.length = ds.width) :
    ∃ q3, create_q3 enc ds = Except.ok q3 ∧ q3.length = ds.q1_cols.length ∧
      ∀ i, i < q3.length → (q3.getD i []).length = 2 * ds.width ∧
        (q3.getD i []).take ds.width = ds.q1_cols.getD i [] := by
  refine ⟨q3F ext ds, create_q3_eq enc ext ds henc, by simp [q3F], ?_⟩
  intro i hi
  have hiq : i < ds.q1_cols.length := by simpa [q3F] using hi
  have hg := q3F_get? ext ds i hiq
  have hcol : ds.q1_cols.getD i [] ∈ ds.q1_cols := getD_mem _ i [] hiq
  constructor
  · rw [getD_of_get? [] hg, List.length_append, (henc _).2, hcols _ hcol]
    omega
  · rw [getD_of_get? [] hg, ← hcols _ hcol]
    exact List.take_left _ _

theorem create_q3_full_codewords_witness :
    SysDoublingWith dupEnc idExt ∧
    (∀ col ∈ ({ q1_cols := [[1, 2], [3, 4]], width := 2 } : DataSquare).q1_cols,
      col.length = ({ q1_cols := [[1, 2], [3, 4]], width := 2 } : DataSquare).width) ∧
    (∃ q3, create_q3 dupEnc { q1_cols := [[1, 2], [3, 4]], width := 2 } =
        Except.ok q3 ∧
      q3.length = ({ q1_cols := [[1, 2], [3, 4]], width := 2 } : DataSquare).q1_cols.length ∧
      ∀ i, i < q3.length → (q3.getD i []).length = 2 * 2 ∧
        (q3.getD i []).take 2 =
          ({ q1_cols := [[1, 2], [3, 4]], width := 2 } : DataSquare).q1_cols.getD i []) :=
  ⟨fun v => ⟨rfl, rfl⟩, by decide,
    create_q3_full_codewords dupEnc idExt { q1_cols := [[1, 2], [3, 4]], width := 2 }
      (fun v => ⟨rfl, rfl⟩) (by decide)⟩

/-- C3: in every run of `extend`, the first commitment tree's leaves are the
spec-ordered flattening of `transpose(Q1)` then `transpose(Q3)`, and the
second tree's leaves the spec-ordered flattening of `Q1_scaled`,
`transpose(Q2)`, `Q3_scaled`, `transpose(Q4)`, one leaf per element, each
the 256-bit hash of the element's canonical big-endian encoding, in that
outer-to-inner order. -/
theorem extend_commitment_order (enc : List Felt → Option (List Felt))
    (ext : List Felt → List Felt) (h : List Nat → List Nat)
    (fmul : Felt → Felt → Felt) (ds : DataSquare) (hv : ValidSquare ds)
    (hw : 0 < ds.width) (henc : SysDoublingWith enc ext) :
    ∃ q3 root eds q1s q3s q2r q4r tq1 tq3 tq2 tq4,
      create_q3 enc ds = Except.ok q3 ∧
      transpose ds.q1_cols = some tq1 ∧
      transpose q3 = some tq3 ∧
      extend enc h fmul ds = Except.ok eds ∧
      merkleRoot h eds.x_tree = some root ∧
      eds.dr = create_dr h ds.width root ∧
      multiply_dr fmul ds.q1_cols eds.dr = some q1s ∧
      multiply_dr fmul q3 eds.dr = some q3s ∧
      extend_quadrant enc q1s = Except.ok q2r ∧
      extend_quadrant enc q3s = Except.ok q4r ∧
      transpose q2r = some tq2 ∧
      transpose q4r = some tq4 ∧
      eds.x_tree = specOrderedLeaves h [tq1, tq3] ∧
      eds.z_tree = specOrderedLeaves h [q1s, tq2, q3s, tq4] := by
  obtain ⟨root, hroot, hrun⟩ := extend_run enc ext h fmul ds hv hw henc
  obtain ⟨hlen, hcols⟩ := hv
  have hext : ∀ v, (ext v).length = v.length := fun v => (henc v).2
  refine ⟨q3F ext ds, root, edsF ext h fmul ds root, q1sF h fmul ds root,
    q3sF ext h fmul ds root, q2rF ext h fmul ds root, q4rF ext h fmul ds root,
    transposeTotal ds.q1_cols, transposeTotal (q3F ext ds),
    transposeTotal (q2rF ext h fmul ds root),
    transposeTotal (q4rF ext h fmul ds root),
    create_q3_eq enc ext ds henc,
    transpose_q1_eq ds hlen hcols,
    transpose_q3F_eq ext ds hlen hcols hext,
    hrun, hroot, rfl,
    multiply_dr_q1_eq h fmul ds root hlen,
    multiply_dr_q3_eq ext h fmul ds root hlen,
    extend_quadrant_q1s enc ext h fmul ds root henc hlen hcols,
    extend_quadrant_q3s enc ext h fmul ds root henc hlen hcols,
    transpose_q2rF ext h fmul ds root hlen hext,
    transpose_q4rF ext h fmul ds root hlen hext,
    ?_, ?_⟩
  · show xLeavesF ext h ds = _
    unfold xLeavesF
    exact create_tree_eq_spec h _
  · show zLeavesF ext h fmul ds root = _
    unfold zLeavesF
    exact create_tree_eq_spec h _

theorem extend_commitment_order_witness :
    ValidSquare { q1_cols := [[5]], width := 1 } ∧
    0 < ({ q1_cols := [[5]], width := 1 } : DataSquare).width ∧
    (∃ q3 root eds q1s q3s q2r q4r tq1 tq3 tq2 tq4,
      create_q3 dupEnc { q1_cols := [[5]], width := 1 } = Except.ok q3 ∧
      transpose ({ q1_cols := [[5]], width := 1 } : DataSquare).q1_cols = some tq1 ∧
      transpose q3 = some tq3 ∧
      extend dupEnc hTest fmulTest { q1_cols := [[5]], width := 1 } = Except.ok eds ∧
      merkleRoot hTest eds.x_tree = some root ∧
      eds.dr = create_dr hTest ({ q1_cols := [[5]], width := 1 } : DataSquare).width root ∧
      multiply_dr fmulTest ({ q1_cols := [[5]], width := 1 } : DataSquare).q1_cols eds.dr = some q1s ∧
      multiply_dr fmulTest q3 eds.dr = some q3s ∧
      extend_quadrant dupEnc q1s = Except.ok q2r ∧
      extend_quadrant dupEnc q3s = Except.ok q4r ∧
      transpose q2r = some tq2 ∧
      transpose q4r = some tq4 ∧
      eds.x_tree = specOrderedLeaves hTest [tq1, tq3] ∧
      eds.z_tree = specOrderedLeaves hTest [q1s, tq2, q3s, tq4]) :=
  ⟨⟨rfl, by decide⟩, by decide,
    extend_commitment_order dupEnc idExt hTest fmulTest
      { q1_cols := [[5]], width := 1 } ⟨rfl, by decide⟩ (by decide)
      (fun v => ⟨rfl, rfl⟩)⟩

/-- C2 counterexample: on the valid width-1 square `[[5]]` with the
identity-doubling encoder the run succeeds, but the assembled columns have
lengths `[3, 2]` — the first (left) column has `3·width` elements, not
`2·width`. -/
theorem extend_column_length_counterexample :
    (extend dupEnc hTest fmulTest { q1_cols := [[5]], width := 1 }).toOption.map
      (fun eds => eds.cols.map List.length) = some [3, 2] ∧
    (3 : Nat) ≠ 2 * ({ q1_cols := [[5]], width := 1 } : DataSquare).width :=
  ⟨rfl, by decide⟩

/-- C2 amended: a successful run assembles exactly `2·width` columns whose
top-left `width × width` block is Q1, but the `width` left columns each
have `3·width` elements (Q1 stacked on the full Q3 codeword) while the
`width` right columns each have `2·width`. -/
theorem extend_assembled_shape (enc : List Felt → Option (List Felt))
    (ext : List Felt → List Felt) (h : List Nat → List Nat)
    (fmul : Felt → Felt → Felt) (ds : DataSquare) (hv : ValidSquare ds)
    (hw : 0 < ds.width) (henc : SysDoublingWith enc ext) :
    ∃ eds, extend enc h fmul ds = Except.ok eds ∧
      eds.cols.length = 2 * ds.width ∧
      (∀ i, i < ds.width → (eds.cols.getD i []).length = 3 * ds.width) ∧
      (∀ i, ds.width ≤ i → i < 2 * ds.width →
        (eds.cols.getD i []).length = 2 * ds.width) ∧
      (∀ i j, i < ds.width → j < ds.width →
        (eds.cols.getD i []).getD j 0 = (ds.q1_cols.getD i []).getD j 0) := by
  obtain ⟨root, hroot, hrun⟩ := extend_run enc ext h fmul ds hv hw henc
  obtain ⟨hlen, hcols⟩ := hv
  have hext : ∀ v, (ext v).length = v.length := fun v => (henc v).2
  have hq3flen : (q3F ext ds).length = ds.q1_cols.length := by simp [q3F]
  have hleft_len : (extendCols ds.q1_cols (q3F ext ds)).length = ds.width := by
    rw [extendCols_length, hlen]
  have hright_len : (extendCols
      (transposeTotal (q2rF ext h fmul ds root))
      (transposeTotal (q4rF ext h fmul ds root))).length = ds.width := by
    rw [extendCols_length, transposeTotal_length, q2rF_length ext h fmul ds root hlen]
  have hcols_len : (colsF ext h fmul ds root).length = 2 * ds.width := by
    unfold colsF
    rw [List.length_append, hleft_len, hright_len]
    omega
  have hleft_get : ∀ i, i < ds.width → (colsF ext h fmul ds root).getD i [] =
      ds.q1_cols.getD i [] ++ (q3F ext ds).getD i [] := by
    intro i hi
    apply getD_of_get?
    unfold colsF
    rw [List.get?_append (by rw [hleft_len]; exact hi)]
    exact extendCols_get?_lt _ _ i (by rw [hlen]; exact hi)
      (by rw [hq3flen, hlen]; exact hi)
  have hright_get : ∀ i, ds.width ≤ i → i < 2 * ds.width →
      (colsF ext h fmul ds root).getD i [] =
        (transposeTotal (q2rF ext h fmul ds root)).getD (i - ds.width) [] ++
        (transposeTotal (q4rF ext h fmul ds root)).getD (i - ds.width) [] := by
    intro i hge hlt
    apply getD_of_get?
    unfold colsF
    rw [List.get?_append_right (by rw [hleft_len]; exact hge), hleft_len]
    apply extendCols_get?_lt
    · rw [transposeTotal_length, q2rF_length ext h fmul ds root hlen]
      omega
    · rw [transposeTotal_length, q4rF_length ext h fmul ds root hlen]
      omega
  refine ⟨edsF ext h fmul ds root, hrun, hcols_len, ?_, ?_, ?_⟩
  · intro i hi
    show ((colsF ext h fmul ds root).getD i []).length = 3 * ds.width
    rw [hleft_get i hi, List.length_append,
      hcols _ (getD_mem ds.q1_cols i [] (by rw [hlen]; exact hi)),
      q3F_col_length ext ds hcols hext _
        (getD_mem (q3F ext ds) i [] (by rw [hq3flen, hlen]; exact hi))]
    omega
  · intro i hge hlt
    show ((colsF ext h fmul ds root).getD i []).length = 2 * ds.width
    rw [hright_get i hge hlt, List.length_append]
    have h2 := transposeTotal_row_length (q2rF ext h fmul ds root) _
      (getD_mem (transposeTotal (q2rF ext h fmul ds root)) (i - ds.width) []
        (by rw [transposeTotal_length, q2rF_length ext h fmul ds root hlen]; omega))
    have h4 := transposeTotal_row_length (q4rF ext h fmul ds root) _
      (getD_mem (transposeTotal (q4rF ext h fmul ds root)) (i - ds.width) []
        (by rw [transposeTotal_length, q4rF_length ext h fmul ds root hlen]; omega))
    rw [h2, h4, q2rF_length ext h fmul ds root hlen,
      q4rF_length ext h fmul ds root hlen]
    omega
  · intro i j hi hj
    show ((colsF ext h fmul ds root).getD i []).getD j 0 = _
    rw [hleft_get i hi]
    apply getD_of_get?
    rw [List.get?_append (by
      rw [hcols _ (getD_mem ds.q1_cols i [] (by rw [hlen]; exact hi))]
      exact hj)]
    exact get?_getD _ j (by
      rw [hcols _ (getD_mem ds.q1_cols i [] (by rw [hlen]; exact hi))]
      exact hj) 0

theorem extend_assembled_shape_witness :
    ValidSquare { q1_cols := [[5]], width := 1 } ∧
    0 < ({ q1_cols := [[5]], width := 1 } : DataSquare).width ∧
    (∃ eds, extend dupEnc hTest fmulTest { q1_cols := [[5]], width := 1 } =
        Except.ok eds ∧
      eds.cols.length = 2 * 1 ∧
      (∀ i, i < 1 → (eds.cols.getD i []).length = 3 * 1) ∧
      (∀ i, 1 ≤ i → i < 2 * 1 → (eds.cols.getD i []).length = 2 * 1) ∧
      (∀ i j, i < 1 → j < 1 → (eds.cols.getD i []).getD j 0 =
        (([[5]] : List (List Felt)).getD i []).getD j 0)) :=
  ⟨⟨rfl, by decide⟩, by decide,
    extend_assembled_shape dupEnc idExt hTest fmulTest
      { q1_cols := [[5]], width := 1 } ⟨rfl, by decide⟩ (by decide)
      (fun v => ⟨rfl, rfl⟩)⟩

/-- C7: on a valid byte square, a successful `extend_square` keeps every
share of the original `width × width` sub-square unchanged in the row-major
view, fills every cell outside that sub-square with the filler share, and
rebuilds the column-major view as the exact transposition of the new
row-major view. -/
theorem extend_square_preserves_original (ds : ByteDataSquare) (k : Nat)
    (filler : List Nat) (hfill : filler.length = ds.share_size)
    (hrows : ds.row_data.length = ds.width)
    (hrlen : ∀ r ∈ ds.row_data, r.length = ds.width) :
    ∃ eds, extend_square ds k filler = Except.ok eds ∧
      eds.width = ds.width + k ∧
      eds.row_data.length = ds.width + k ∧
      (∀ r ∈ eds.row_data, r.length = ds.width + k) ∧
      (∀ i j, i < ds.width → j < ds.width →
        (eds.row_data.getD i []).getD j [] = (ds.row_data.getD i []).getD j []) ∧
      (∀ i j, i < ds.width + k → j < ds.width + k → (ds.width ≤ i ∨ ds.width ≤ j) →
        (eds.row_data.getD i []).getD j [] = filler) ∧
      eds.col_data.length = ds.width + k ∧
      (∀ c, c < ds.width + k → (eds.col_data.getD c []).length = ds.width + k ∧
        ∀ r, r < ds.width + k →
          (eds.col_data.getD c []).getD r [] = (eds.row_data.getD r []).getD c []) := by
  have hcond : ¬ (filler.length ≠ ds.share_size) := by
    rw [hfill]
    exact fun hne => hne rfl
  unfold extend_square
  rw [if_neg hcond]
  set rowsN := (List.range ds.width).map
      (fun i => ((ds.row_data.get? i).getD []) ++ List.replicate k filler)
    ++ List.replicate (ds.width + k - ds.width) (List.replicate (ds.width + k) filler)
    with hrowsN
  have hrepl : ds.width + k - ds.width = k := Nat.add_sub_cancel_left ds.width k
  have hlrows : rowsN.length = ds.width + k := by
    rw [hrowsN, List.length_append, List.length_map, List.length_range,
      List.length_replicate, hrepl]
  have hrow_lt : ∀ i, i < ds.width → rowsN.getD i [] =
      ds.row_data.getD i [] ++ List.replicate k filler := by
    intro i hi
    apply getD_of_get?
    rw [hrowsN, List.get?_append (by
      rw [List.length_map, List.length_range]
      exact hi)]
    rw [List.get?_map, List.get?_range hi]
    simp only [Option.map_some']
    rw [get?_getD ds.row_data i (by rw [hrows]; exact hi) []]
    rfl
  have hrow_ge : ∀ i, ds.width ≤ i → i < ds.width + k →
      rowsN.getD i [] = List.replicate (ds.width + k) filler := by
    intro i hge hlt
    apply getD_of_get?
    rw [hrowsN, List.get?_append_right (by
      rw [List.length_map, List.length_range]
      exact hge)]
    rw [List.length_map, List.length_range, hrepl]
    exact replicate_get? k (i - ds.width) _ (by omega)
  have hrow_len : ∀ r ∈ rowsN, r.length = ds.width + k := by
    intro r hr
    rw [hrowsN] at hr
    rcases List.mem_append.mp hr with hr | hr
    · obtain ⟨i, hi, rfl⟩ := List.mem_map.mp hr
      rw [List.mem_range] at hi
      rw [List.length_append, List.length_replicate,
        show (ds.row_data.get? i).getD [] = ds.row_data.getD i [] from
          (getD_eq_get?_getD ds.row_data i []).symm,
        hrlen _ (getD_mem ds.row_data i [] (by rw [hrows]; exact hi))]
    · rw [(List.mem_replicate.mp hr).2, List.length_replicate]
  refine ⟨_, rfl, rfl, hlrows, hrow_len, ?_, ?_, ?_, ?_⟩
  · intro i j hi hj
    show (rowsN.getD i []).getD j [] = _
    rw [hrow_lt i hi]
    apply getD_of_get?
    rw [List.get?_append (by
      rw [hrlen _ (getD_mem ds.row_data i [] (by rw [hrows]; exact hi))]
      exact hj)]
    exact get?_getD _ j (by
      rw [hrlen _ (getD_mem ds.row_data i [] (by rw [hrows]; exact hi))]
      exact hj) []
  · intro i j hi hj hout
    show (rowsN.getD i []).getD j [] = filler
    rcases Nat.lt_or_ge i ds.width with hilt | hige
    · have hjout : ds.width ≤ j := by
        rcases hout with hout | hout
        · omega
        · exact hout
      rw [hrow_lt i hilt]
      apply getD_of_get?
      rw [List.get?_append_right (by
        rw [hrlen _ (getD_mem ds.row_data i [] (by rw [hrows]; exact hilt))]
        exact hjout)]
      rw [hrlen _ (getD_mem ds.row_data i [] (by rw [hrows]; exact hilt))]
      exact replicate_get? k (j - ds.width) filler (by omega)
    · rw [hrow_ge i hige hi]
      apply getD_of_get?
      exact replicate_get? (ds.width + k) j filler hj
  · show ((List.range (ds.width + k)).map _).length = ds.width + k
    rw [List.length_map, List.length_range]
  · intro c hc
    have hcget : ((List.range (ds.width + k)).map (fun col_idx =>
        (List.range (ds.width + k)).map (fun row_idx =>
          (((rowsN.get? row_idx).getD []).get? col_idx).getD []))).getD c [] =
        (List.range (ds.width + k)).map (fun row_idx =>
          (((rowsN.get? row_idx).getD []).get? c).getD []) := by
      apply getD_of_get?
      rw [List.get?_map, List.get?_range hc]
      rfl
    rw [hcget]
    refine ⟨by rw [List.length_map, List.length_range], ?_⟩
    intro r hr
    have hrget : ((List.range (ds.width + k)).map (fun row_idx =>
        (((rowsN.get? row_idx).getD []).get? c).getD [])).getD r [] =
        (((rowsN.get? r).getD []).get? c).getD [] := by
      apply getD_of_get?
      rw [List.get?_map, List.get?_range hr]
      rfl
    rw [hrget,
      show (rowsN.get? r).getD [] = rowsN.getD r [] from
        (getD_eq_get?_getD rowsN r []).symm,
      show ((rowsN.getD r []).get? c).getD [] = (rowsN.getD r []).getD c [] from
        (getD_eq_get?_getD (rowsN.getD r []) c []).symm]

theorem extend_square_preserves_original_witness :
    ([9] : List Nat).length =
      ({ row_data := [[[1], [2]], [[3], [4]]], col_data := [[[1], [3]], [[2], [4]]],
         width := 2, share_size := 1 } : ByteDataSquare).share_size ∧
    (∃ eds, extend_square
        { row_data := [[[1], [2]], [[3], [4]]], col_data := [[[1], [3]], [[2], [4]]],
          width := 2, share_size := 1 } 2 [9] = Except.ok eds ∧
      eds.width = 2 + 2 ∧
      eds.row_data.length = 2 + 2 ∧
      (∀ r ∈ eds.row_data, r.length = 2 + 2) ∧
      (∀ i j, i < 2 → j < 2 → (eds.row_data.getD i []).getD j [] =
        (([[[1], [2]], [[3], [4]]] : List (List (List Nat))).getD i []).getD j []) ∧
      (∀ i j, i < 2 + 2 → j < 2 + 2 → (2 ≤ i ∨ 2 ≤ j) →
        (eds.row_data.getD i []).getD j [] = [9]) ∧
      eds.col_data.length = 2 + 2 ∧
      (∀ c, c < 2 + 2 → (eds.col_data.getD c []).length = 2 + 2 ∧
        ∀ r, r < 2 + 2 →
          (eds.col_data.getD c []).getD r [] = (eds.row_data.getD r []).getD c [])) :=
  ⟨rfl, extend_square_preserves_original
    { row_data := [[[1], [2]], [[3], [4]]], col_data := [[[1], [3]], [[2], [4]]],
      width := 2, share_size := 1 } 2 [9] rfl rfl (by decide)⟩

end Zoda
